import Mathlib

/-
Verification of the runtime configuration-injection mechanism of the
frontend-containers repository.  The mechanism is the start-nginx.sh script

  export EXISTING_VARS=$(printenv | awk -F= '...print first field...' |
                         sed '...prefix each line with a dollar sign...' | paste -sd,)
  for file in $JSFOLDER; do
    cat $file | envsubst $EXISTING_VARS > $file.tmp
    mv $file.tmp $file
  done
  nginx -g ...

together with the jq build-stage transform of config.json.  The embedding
models, character by character, GNU gettext envsubst (its subst_from_stdin
scanner and its SHELL-FORMAT variable extraction), the shell pipeline that
computes EXISTING_VARS, bash pathname expansion of the JSFOLDER glob
(an unmatched pattern is kept as the literal word), and the per-file
rewrite loop over an explicit filesystem.
-/

/-- Characters accepted by envsubst as the first character of a variable
name: ASCII letters and the underscore. -/
def identStart (c : Char) : Bool := c.isAlpha || c == '_'

/-- Characters accepted by envsubst inside a variable name: ASCII letters,
digits and the underscore. -/
def identChar (c : Char) : Bool := identStart c || c.isDigit

/-- Nonempty list of characters forming a shell identifier. -/
def isIdentName : List Char → Bool
  | [] => false
  | c :: cs => identStart c && cs.all identChar

/-- Output alphabet of the envsubst scanner: a literal character, or a
fully parsed variable reference (with a flag telling whether it was
written in the braced form). -/
inductive Tok where
  | lit (c : Char)
  | var (nm : List Char) (braced : Bool)
deriving DecidableEq

/-- Scanner state of envsubst main loop: outside any candidate, right
after a dollar sign, right after dollar-open-brace, or inside a variable
name being accumulated. -/
inductive ScanSt where
  | normal
  | sawDollar
  | sawBrace
  | name (braced : Bool) (acc : List Char)

/-- What gettext envsubst emits for a pending state when the input ends:
an unfinished candidate is printed back verbatim, except that a complete
unbraced name at end of input is a valid reference. -/
def flushSt : ScanSt → List Tok
  | .normal => []
  | .sawDollar => [.lit '$']
  | .sawBrace => [.lit '$', .lit '\x7b']
  | .name false acc => [.var acc false]
  | .name true acc => .lit '$' :: .lit '\x7b' :: acc.map .lit

/-- The envsubst scanner (gettext subst_from_stdin): a character-driven
state machine over the input.  The C code pushes a rejected character
back onto stdin; here rejection is inlined as a direct transition on that
character. -/
def scan : ScanSt → List Char → List Tok
  | st, [] => flushSt st
  | .normal, c :: rest =>
      if c == '$' then scan .sawDollar rest
      else .lit c :: scan .normal rest
  | .sawDollar, c :: rest =>
      if c == '\x7b' then scan .sawBrace rest
      else if identStart c then scan (.name false [c]) rest
      else if c == '$' then .lit '$' :: scan .sawDollar rest
      else .lit '$' :: .lit c :: scan .normal rest
  | .sawBrace, c :: rest =>
      if identStart c then scan (.name true [c]) rest
      else if c == '$' then .lit '$' :: .lit '\x7b' :: scan .sawDollar rest
      else .lit '$' :: .lit '\x7b' :: .lit c :: scan .normal rest
  | .name braced acc, c :: rest =>
      if identChar c then scan (.name braced (acc ++ [c])) rest
      else if braced then
        if c == '\x7d' then .var acc true :: scan .normal rest
        else if c == '$' then (.lit '$' :: .lit '\x7b' :: acc.map .lit) ++ scan .sawDollar rest
        else (.lit '$' :: .lit '\x7b' :: acc.map .lit) ++ (.lit c :: scan .normal rest)
      else
        if c == '$' then .var acc false :: scan .sawDollar rest
        else .var acc false :: .lit c :: scan .normal rest

/-- Tokenization of a whole input, starting outside any candidate. -/
def tokenize (l : List Char) : List Tok := scan .normal l

/-- How envsubst prints one token.  A variable in the allowed set (the
variables referenced in the SHELL-FORMAT argument) is replaced by its
value in the process environment, the empty string when it is unset; a
variable outside the allowed set is printed back exactly as it was
written, braces included. -/
def renderTok (allowed : List String) (env : List (String × String)) : Tok → List Char
  | .lit c => [c]
  | .var nm braced =>
      if allowed.contains (String.mk nm) then ((env.lookup (String.mk nm)).getD "").data
      else if braced then '$' :: '\x7b' :: (nm ++ ['\x7d'])
      else '$' :: nm

/-- Concatenated rendering of a token list. -/
def substTokens (allowed : List String) (env : List (String × String)) (ts : List Tok) : List Char :=
  (ts.map (renderTok allowed env)).flatten

/-- envsubst output on a character list. -/
def envsubstChars (allowed : List String) (env : List (String × String)) (l : List Char) : List Char :=
  substTokens allowed env (tokenize l)

/-- envsubst as a string transformer: the body of
cat file | envsubst EXISTING_VARS. -/
def envsubstRun (allowed : List String) (env : List (String × String)) (s : String) : String :=
  String.mk (envsubstChars allowed env s.data)

/-- The variable references occurring in a text, in scan order: this is
both gettext find_variables (applied to the SHELL-FORMAT argument) and
the set of placeholder names of a target file. -/
def varRefs (l : List Char) : List String :=
  (tokenize l).filterMap fun t =>
    match t with
    | .var nm _ => some (String.mk nm)
    | .lit _ => none

/-- Record splitting at newline characters, as awk does on its input:
printenv terminates every entry with a newline, so the records of the
stream are the newline-separated pieces of each entry. -/
def splitLines : List Char → List (List Char)
  | [] => [[]]
  | c :: rest =>
      if c == '\n' then [] :: splitLines rest
      else
        match splitLines rest with
        | [] => [[c]]
        | h :: t => (c :: h) :: t

/-- The records awk receives from printenv: each environment entry is
printed as NAME=VALUE followed by a newline, and a newline inside a value
starts a new record. -/
def printenvRecords (env : List (String × String)) : List (List Char) :=
  (env.map fun p => splitLines (p.1.data ++ '=' :: p.2.data)).flatten

/-- awk -F= with print of the first field: everything before the first
equals sign of the record (the whole record when it has none). -/
def awkFirstField (l : List Char) : List Char := l.takeWhile fun c => !(c == '=')

/-- paste -sd, : join all lines into one, separated by commas. -/
def joinWithComma : List (List Char) → List Char
  | [] => []
  | [l] => l
  | l :: ls => l ++ ',' :: joinWithComma ls

/-- The EXISTING_VARS string: first field of every printenv record,
prefixed with a dollar sign by sed, joined by commas by paste. -/
def existingVarsFormat (env : List (String × String)) : List Char :=
  joinWithComma ((printenvRecords env).map fun f => '$' :: awkFirstField f)

/-- The allowed-variable set envsubst derives from its SHELL-FORMAT
argument EXISTING_VARS: the variable references found in that string. -/
def existingVars (env : List (String × String)) : List String :=
  varRefs (existingVarsFormat env)

/-- The transformation the loop body applies to the contents of one
target file: envsubst restricted to the EXISTING_VARS set, resolving
against the same environment. -/
def materializeContent (env : List (String × String)) (s : String) : String :=
  envsubstRun (existingVars env) env s

/-- The environment snapshots for which the EXISTING_VARS pipeline is
faithful to the mapping: every name is a shell identifier and no value
contains a newline character. -/
def envWellFormed (env : List (String × String)) : Prop :=
  ∀ p ∈ env, isIdentName p.1.data = true ∧ '\n' ∉ p.2.data

instance (env : List (String × String)) : Decidable (envWellFormed env) := by
  unfold envWellFormed; infer_instance

/-- The filesystem and the set of paths on which I/O is denied
(permissions); reads and writes on a denied path fail. -/
structure Sys where
  files : List (String × String)
  denied : List String
deriving DecidableEq

/-- Store a content under a path, replacing any previous entry. -/
def fsSet : List (String × String) → String → String → List (String × String)
  | [], p, c => [(p, c)]
  | (q, d) :: rest, p, c => if q == p then (p, c) :: rest else (q, d) :: fsSet rest p c

/-- Drop the entry of a path. -/
def fsRemove (fs : List (String × String)) (p : String) : List (String × String) :=
  fs.filter fun q => !(q.1 == p)

/-- Read a file: none when the path is missing or its access is denied. -/
def readFile (s : Sys) (p : String) : Option String :=
  if s.denied.contains p then none else s.files.lookup p

/-- Write a file, reporting whether the write succeeded. -/
def writeFile (s : Sys) (p c : String) : Sys × Bool :=
  if s.denied.contains p then (s, false)
  else ({ s with files := fsSet s.files p c }, true)

/-- cat file | envsubst EXISTING_VARS > file.tmp : a failed cat feeds an
empty stream into the pipe, so the pipeline status (the status of its
last command, envsubst) is zero whenever the output redirection can be
opened, and one otherwise. -/
def pipeCmd (env : List (String × String)) (s : Sys) (p : String) : Sys × Nat :=
  let input := (readFile s p).getD ""
  let out := materializeContent env input
  let w := writeFile s (p ++ ".tmp") out
  (w.1, if w.2 then 0 else 1)

/-- mv src dst : an atomic rename; it fails when the source is missing or
the destination is denied. -/
def mvCmd (s : Sys) (src dst : String) : Sys × Nat :=
  match s.files.lookup src with
  | none => (s, 1)
  | some c =>
      if s.denied.contains dst then (s, 1)
      else ({ s with files := fsSet (fsRemove s.files src) dst c }, 0)

/-- One iteration of the loop body on one word, returning the status of
its last command mv; bash runs the next iteration regardless. -/
def processFile (env : List (String × String)) (s : Sys) (p : String) : Sys × Nat :=
  let r1 := pipeCmd env s p
  mvCmd r1.1 (p ++ ".tmp") p

/-- Observable events of a run: a loop iteration over a word, and the
start of the server. -/
inductive Ev where
  | processed (p : String)
  | serverStart
deriving DecidableEq

/-- State after the loop: final filesystem, status of the last command
executed (the exit status the loop leaves in the shell), events. -/
structure LoopOut where
  sys : Sys
  exitCode : Nat
  events : List Ev

/-- The for-loop of start-nginx.sh: every word is processed in order,
with no error checking between iterations. -/
def runLoop (env : List (String × String)) : Sys → List String → LoopOut
  | s, [] => ⟨s, 0, []⟩
  | s, p :: rest =>
      let r := processFile env s p
      let out := runLoop env r.1 rest
      ⟨out.sys, if rest.isEmpty then r.2 else out.exitCode, Ev.processed p :: out.events⟩

/-- Shell glob matching for one path component pattern as used on
JSFOLDER: a star matches any run of characters other than the path
separator, a question mark one such character, anything else itself. -/
def globMatchF : Nat → List Char → List Char → Bool
  | _, [], [] => true
  | _, [], _ :: _ => false
  | fu + 1, '*' :: ps, s =>
      globMatchF fu ps s ||
        (match s with
         | [] => false
         | c :: sr => !(c == '/') && globMatchF fu ('*' :: ps) sr)
  | _ + 1, _ :: _, [] => false
  | fu + 1, pc :: ps, c :: sr =>
      (pc == c || (pc == '?' && !(c == '/'))) && globMatchF fu ps sr
  | 0, _, _ => false

/-- Whether a path matches the glob pattern. -/
def globMatch (pat p : String) : Bool :=
  globMatchF (pat.data.length + p.data.length) pat.data p.data

/-- Lexicographic comparison of character lists by code point. -/
def strLeB : List Char → List Char → Bool
  | [], _ => true
  | _ :: _, [] => false
  | a :: as, b :: bs => if a == b then strLeB as bs else decide (a.toNat < b.toNat)

/-- Insertion into a sorted list of strings. -/
def insertSorted (x : String) : List String → List String
  | [] => [x]
  | y :: ys => if strLeB x.data y.data then x :: y :: ys else y :: insertSorted x ys

/-- Sort strings lexicographically, as bash sorts glob matches. -/
def sortStrings (l : List String) : List String := l.foldr insertSorted []

/-- bash pathname expansion of the unquoted word JSFOLDER: the sorted
existing paths matching the pattern, or, when nothing matches (and
nullglob is off, the default), the literal pattern itself as the single
word. -/
def expandGlob (pat : String) (files : List (String × String)) : List String :=
  match sortStrings ((files.map Prod.fst).filter fun p => globMatch pat p) with
  | [] => [pat]
  | ms => ms

/-- Result of running start-nginx.sh: the final system state, the exit
status the materialization loop left behind, whether nginx was started,
and the event trace. -/
structure ScriptResult where
  sys : Sys
  materializationExit : Nat
  serverStarted : Bool
  trace : List Ev

/-- The whole script: compute EXISTING_VARS from the environment, expand
the JSFOLDER glob, run the rewrite loop, then start nginx -- there is no
conditional anywhere, so nginx is started unconditionally after the loop. -/
def runScript (env : List (String × String)) (jsfolder : String) (s : Sys) : ScriptResult :=
  let words := expandGlob jsfolder s.files
  let out := runLoop env s words
  ⟨out.sys, out.exitCode, true, out.events ++ [Ev.serverStart]⟩

/-- Crash-point view of the rewrite of one file, with all I/O permitted:
stage 0 is before the iteration, stage 1 a partial write of the
temporary file (crash mid-write, with arbitrary partial content), stage
2 the fully written temporary file before the rename, and any later
stage the state after mv renamed the temporary file over the original. -/
def rewriteStage (env : List (String × String)) (fs : List (String × String))
    (p : String) (mid : String) (k : Nat) : List (String × String) :=
  if k = 0 then fs
  else if k = 1 then (writeFile ⟨fs, []⟩ (p ++ ".tmp") mid).1.files
  else if k = 2 then (pipeCmd env ⟨fs, []⟩ p).1.files
  else (processFile env ⟨fs, []⟩ p).1.files

/-- Number of tokens of a text that envsubst actually substitutes. -/
def substitutedCount (allowed : List String) (l : List Char) : Nat :=
  (tokenize l).countP fun t =>
    match t with
    | .var nm _ => allowed.contains (String.mk nm)
    | .lit _ => false

/-- Flat JSON values of the config file. -/
inductive JVal where
  | str (s : String)
  | num (n : Int)
  | bool (b : Bool)
  | null
deriving DecidableEq

/-- jq to_entries on a flat object: its list of key-value entries. -/
def toEntries (o : List (String × JVal)) : List (String × JVal) := o

/-- One step of the jq map_values body: an entry becomes the singleton
object binding its key to the literal dollar-prefixed key. -/
def entryToVarObj (e : String × JVal) : List (String × JVal) :=
  [(e.1, JVal.str ("$" ++ e.1))]

/-- jq object addition: keys of both objects, the right operand winning
on collisions. -/
def objAdd (a b : List (String × JVal)) : List (String × JVal) :=
  (a.filter fun p => !((b.map Prod.fst).contains p.1)) ++ b

/-- The build-stage jq filter
to_entries | map_values(...) | reduce .[] as item (empty; . + item). -/
def jqEnvTransform (o : List (String × JVal)) : List (String × JVal) :=
  ((toEntries o).map entryToVarObj).foldl objAdd []

example : tokenize "$AB".data = [.var ['A', 'B'] false] := by decide

example : envsubstRun ["A"] [("A", "x")] "p $A q" = "p x q" := by decide

example : envsubstRun ["A"] [("B", "x")] "$B" = "$B" := by decide

example : existingVars [("A", "1"), ("B_2", "")] = ["A", "B_2"] := by decide

example : existingVars [("A", "x\nFOO")] = ["A", "FOO"] := by decide

example : materializeContent [("ENV", "prod"), ("BASE_URL", "/api")]
    "\x7b\x22ENV\x22:\x22$ENV\x22,\x22BASE_URL\x22:\x22$BASE_URL\x22\x7d" =
    "\x7b\x22ENV\x22:\x22prod\x22,\x22BASE_URL\x22:\x22/api\x22\x7d" := by decide

example : (runScript [("A", "1")] "*.js" ⟨[("a.js", "$A")], []⟩).sys.files = [("a.js", "1")] := by decide

/-- Variable references of a token list. -/
def tokRefs (ts : List Tok) : List String :=
  ts.filterMap fun t =>
    match t with
    | .var nm _ => some (String.mk nm)
    | .lit _ => none

theorem varRefs_eq_tokRefs (l : List Char) : varRefs l = tokRefs (tokenize l) := rfl

theorem stringMk_data (s : String) : String.mk s.data = s := by
  cases s
  rfl

theorem identStart_identChar {c : Char} (h : identStart c = true) : identChar c = true := by
  simp [identChar, h]

theorem identChar_beq_false {c x : Char} (h : identChar c = true) (hx : identChar x = false) :
    (c == x) = false := by
  cases hcx : c == x
  · rfl
  · rw [eq_of_beq hcx] at h
    rw [h] at hx
    cases hx

theorem isIdentName_chars {l : List Char} (h : isIdentName l = true) :
    ∀ c ∈ l, identChar c = true := by
  cases l with
  | nil => cases h
  | cons c cs =>
    simp only [isIdentName, Bool.and_eq_true, List.all_eq_true] at h
    intro d hd
    rcases List.mem_cons.mp hd with rfl | hd
    · exact identStart_identChar h.1
    · exact h.2 d hd

theorem tokenize_nil : tokenize [] = [] := rfl

theorem tokenize_lit (c : Char) (rest : List Char) (h : (c == '$') = false) :
    tokenize (c :: rest) = .lit c :: tokenize rest := by
  simp [tokenize, scan, h]

theorem scan_name_braced (cs : List Char) :
    ∀ acc rest : List Char, cs.all identChar = true →
      scan (.name true acc) (cs ++ '\x7d' :: rest) = .var (acc ++ cs) true :: scan .normal rest := by
  induction cs with
  | nil =>
    intro acc rest _
    have h1 : identChar '\x7d' = false := by decide
    simp [scan, h1]
  | cons c cs ih =>
    intro acc rest h
    simp only [List.all_cons, Bool.and_eq_true] at h
    simp only [List.cons_append, scan, h.1, if_true, List.append_eq]
    rw [ih (acc ++ [c]) rest h.2]
    simp

theorem scan_name_bare (cs : List Char) :
    ∀ acc rest : List Char, cs.all identChar = true →
      (∀ d ∈ rest.head?, identChar d = false) →
      scan (.name false acc) (cs ++ rest) = .var (acc ++ cs) false :: scan .normal rest := by
  induction cs with
  | nil =>
    intro acc rest _ hrest
    cases rest with
    | nil => simp [scan, flushSt]
    | cons d r =>
      have hd : identChar d = false := hrest d (by simp)
      cases hdd : d == '$'
      · simp [scan, hd, hdd]
      · simp [scan, hd, hdd]
  | cons c cs ih =>
    intro acc rest h hrest
    simp only [List.all_cons, Bool.and_eq_true] at h
    simp only [List.cons_append, scan, h.1, if_true, List.append_eq]
    rw [ih (acc ++ [c]) rest h.2 hrest]
    simp

theorem identStart_ne_brace {c : Char} (h : identStart c = true) : (c == '\x7b') = false := by
  cases hc : c == '\x7b'
  · rfl
  · rw [eq_of_beq hc] at h
    cases h

theorem identStart_ne_dollar {c : Char} (h : identStart c = true) : (c == '$') = false := by
  cases hc : c == '$'
  · rfl
  · rw [eq_of_beq hc] at h
    cases h

theorem tokenize_braced (c : Char) (cs rest : List Char) (h1 : identStart c = true)
    (h2 : cs.all identChar = true) :
    tokenize ('$' :: '\x7b' :: c :: (cs ++ '\x7d' :: rest)) = .var (c :: cs) true :: tokenize rest := by
  show scan .normal _ = _
  rw [show scan ScanSt.normal ('$' :: '\x7b' :: c :: (cs ++ '\x7d' :: rest)) =
        scan (ScanSt.name true [c]) (cs ++ '\x7d' :: rest) from by simp [scan, h1]]
  rw [scan_name_braced cs [c] rest h2]
  rfl

theorem tokenize_bare (c : Char) (cs rest : List Char) (h1 : identStart c = true)
    (h2 : cs.all identChar = true) (h3 : ∀ d ∈ rest.head?, identChar d = false) :
    tokenize ('$' :: c :: (cs ++ rest)) = .var (c :: cs) false :: tokenize rest := by
  show scan .normal _ = _
  rw [show scan ScanSt.normal ('$' :: c :: (cs ++ rest)) =
        scan (ScanSt.name false [c]) (cs ++ rest) from by
      simp [scan, h1, identStart_ne_brace h1]]
  rw [scan_name_bare cs [c] rest h2 h3]
  rfl

theorem substTokens_nil (A : List String) (E : List (String × String)) :
    substTokens A E [] = [] := rfl

theorem substTokens_cons (A : List String) (E : List (String × String)) (t : Tok) (ts : List Tok) :
    substTokens A E (t :: ts) = renderTok A E t ++ substTokens A E ts := by
  simp [substTokens]

theorem substTokens_append (A : List String) (E : List (String × String)) (ts us : List Tok) :
    substTokens A E (ts ++ us) = substTokens A E ts ++ substTokens A E us := by
  simp [substTokens]

theorem substTokens_lits (A : List String) (E : List (String × String)) :
    ∀ xs : List Char, substTokens A E (xs.map .lit) = xs := by
  intro xs
  induction xs with
  | nil => rfl
  | cons x xs ih => simp [substTokens_cons, renderTok, ih]

theorem splitLines_of_no_newline (l : List Char) (h : '\n' ∉ l) : splitLines l = [l] := by
  induction l with
  | nil => rfl
  | cons c cs ih =>
    simp only [List.mem_cons, not_or] at h
    have hc : (c == '\n') = false := by
      cases hcc : c == '\n'
      · rfl
      · exact absurd (eq_of_beq hcc) (Ne.symm h.1)
    simp [splitLines, hc, ih h.2]

theorem printenvRecords_wf (env : List (String × String)) (h : envWellFormed env) :
    printenvRecords env = env.map fun p => p.1.data ++ '=' :: p.2.data := by
  induction env with
  | nil => rfl
  | cons p ps ih =>
    have hp := h p (by simp)
    have hps : envWellFormed ps := fun q hq => h q (by simp [hq])
    have hnl : '\n' ∉ p.1.data ++ '=' :: p.2.data := by
      intro hmem
      rcases List.mem_append.mp hmem with hin | hin
      · exact absurd (isIdentName_chars hp.1 '\n' hin) (by decide)
      · rcases List.mem_cons.mp hin with heq | hin
        · cases heq
        · exact hp.2 hin
    simp only [printenvRecords, List.map_cons, List.flatten_cons,
      splitLines_of_no_newline _ hnl]
    simp only [printenvRecords] at ih
    simp [ih hps]

theorem awkFirstField_entry (n v : List Char) (hn : ∀ c ∈ n, identChar c = true) :
    awkFirstField (n ++ '=' :: v) = n := by
  induction n with
  | nil => simp [awkFirstField, List.takeWhile]
  | cons c cs ih =>
    have hc : (c == '=') = false := identChar_beq_false (hn c (by simp)) (by decide)
    simp only [awkFirstField, List.cons_append, List.takeWhile_cons, hc] at ih ⊢
    simp only [Bool.not_false, if_true]
    rw [ih fun d hd => hn d (by simp [hd])]

theorem varRefs_cons_nonident (c : Char) (l : List Char) (h1 : (c == '$') = false) :
    varRefs (c :: l) = varRefs l := by
  simp [varRefs_eq_tokRefs, tokenize_lit c l h1, tokRefs, List.filterMap_cons]

theorem varRefs_format (names : List (List Char)) (h : ∀ n ∈ names, isIdentName n = true) :
    varRefs (joinWithComma (names.map fun n => '$' :: n)) = names.map String.mk := by
  induction names with
  | nil => rfl
  | cons n ns ih =>
    have hn := h n (by simp)
    obtain ⟨c, cs, rfl⟩ : ∃ c cs, n = c :: cs := by
      cases n with
      | nil => cases hn
      | cons c cs => exact ⟨c, cs, rfl⟩
    simp only [isIdentName, Bool.and_eq_true] at hn
    cases ns with
    | nil =>
      have ht := tokenize_bare c cs [] hn.1 hn.2 (by simp)
      simp only [List.append_nil] at ht
      simp [joinWithComma, varRefs_eq_tokRefs, ht, tokRefs, List.filterMap_cons, tokenize_nil]
    | cons m ms =>
      have hcomma : ∀ d ∈ (',' :: joinWithComma ((m :: ms).map fun x => '$' :: x)).head?,
          identChar d = false := by simp; decide
      have ht := tokenize_bare c cs (',' :: joinWithComma ((m :: ms).map fun x => '$' :: x))
        hn.1 hn.2 hcomma
      have hjoin : joinWithComma (((c :: cs) :: m :: ms).map fun x => '$' :: x) =
          '$' :: c :: (cs ++ ',' :: joinWithComma ((m :: ms).map fun x => '$' :: x)) := by
        simp [joinWithComma]
      rw [hjoin, varRefs_eq_tokRefs, ht]
      simp only [tokRefs, List.filterMap_cons]
      rw [← tokRefs, ← varRefs_eq_tokRefs,
        varRefs_cons_nonident ',' _ (by decide), ih fun x hx => h x (by simp [hx])]
      simp

theorem existingVars_wf (env : List (String × String)) (h : envWellFormed env) :
    existingVars env = env.map Prod.fst := by
  have hfields : (printenvRecords env).map awkFirstField = env.map fun p => p.1.data := by
    rw [printenvRecords_wf env h]
    simp only [List.map_map]
    apply List.map_congr_left
    intro p hp
    exact awkFirstField_entry _ _ (isIdentName_chars (h p hp).1)
  have hfmt : existingVarsFormat env =
      joinWithComma ((env.map fun p => p.1.data).map fun n => '$' :: n) := by
    simp only [existingVarsFormat]
    rw [show ((printenvRecords env).map fun f => '$' :: awkFirstField f) =
          ((printenvRecords env).map awkFirstField).map fun n => '$' :: n from by
        simp [List.map_map]]
    rw [hfields]
  rw [existingVars, hfmt, varRefs_format _ fun n hn => by
    obtain ⟨p, hp, rfl⟩ := List.mem_map.mp hn
    exact (h p hp).1]
  simp only [List.map_map]
  apply List.map_congr_left
  intro p _
  exact stringMk_data p.1

/-- The text a pending scanner state owes to the output: the characters
already consumed but not yet emitted. -/
def pendText : ScanSt → List Char
  | .normal => []
  | .sawDollar => ['$']
  | .sawBrace => ['$', '\x7b']
  | .name false acc => '$' :: acc
  | .name true acc => '$' :: '\x7b' :: acc

theorem tokRefs_cons_lit (c : Char) (ts : List Tok) :
    tokRefs (.lit c :: ts) = tokRefs ts := by
  simp [tokRefs, List.filterMap_cons]

theorem tokRefs_cons_var (nm : List Char) (b : Bool) (ts : List Tok) :
    tokRefs (.var nm b :: ts) = String.mk nm :: tokRefs ts := by
  simp [tokRefs, List.filterMap_cons]

theorem tokRefs_lits_append (xs : List Char) (ts : List Tok) :
    tokRefs (xs.map .lit ++ ts) = tokRefs ts := by
  induction xs with
  | nil => rfl
  | cons x xs ih => simpa [tokRefs_cons_lit] using ih

theorem renderTok_lit (A : List String) (E : List (String × String)) (c : Char) :
    renderTok A E (.lit c) = [c] := rfl

theorem substTokens_verbatim (A : List String) (E : List (String × String)) :
    ∀ (l : List Char) (st : ScanSt),
      (∀ n ∈ tokRefs (scan st l), A.contains n = false) →
      substTokens A E (scan st l) = pendText st ++ l := by
  intro l
  induction l with
  | nil =>
    intro st h
    cases st with
    | normal => rfl
    | sawDollar => rfl
    | sawBrace => rfl
    | name braced acc =>
      cases braced with
      | false =>
        have hc : A.contains (String.mk acc) = false := by
          apply h
          simp [scan, flushSt, tokRefs_cons_var]
        have hmem : String.mk acc ∉ A := by simpa using hc
        simp [scan, flushSt, substTokens_cons, renderTok, hmem, pendText, substTokens_nil]
      | true =>
        simp [scan, flushSt, pendText, substTokens_cons, renderTok_lit,
          substTokens_lits, substTokens_append]
  | cons c rest ih =>
    intro st h
    cases st with
    | normal =>
      cases h1 : c == '$'
      · rw [show scan ScanSt.normal (c :: rest) = .lit c :: scan ScanSt.normal rest from by
            simp [scan, h1]] at h ⊢
        rw [substTokens_cons, ih .normal (by simpa [tokRefs_cons_lit] using h)]
        simp [pendText, renderTok_lit]
      · cases eq_of_beq h1
        rw [show scan ScanSt.normal ('$' :: rest) = scan ScanSt.sawDollar rest from by
            simp [scan]] at h ⊢
        rw [ih .sawDollar h]
        rfl
    | sawDollar =>
      cases h1 : c == '\x7b'
      · cases h2 : identStart c
        · cases h3 : c == '$'
          · rw [show scan ScanSt.sawDollar (c :: rest) =
                  .lit '$' :: .lit c :: scan ScanSt.normal rest from by
                simp [scan, h1, h2, h3]] at h ⊢
            rw [substTokens_cons, substTokens_cons,
              ih .normal (by simpa [tokRefs_cons_lit] using h)]
            simp [pendText, renderTok_lit]
          · cases eq_of_beq h3
            rw [show scan ScanSt.sawDollar ('$' :: rest) =
                  .lit '$' :: scan ScanSt.sawDollar rest from by
                simp [scan, h1, h2]] at h ⊢
            rw [substTokens_cons, ih .sawDollar (by simpa [tokRefs_cons_lit] using h)]
            simp [pendText, renderTok_lit]
        · rw [show scan ScanSt.sawDollar (c :: rest) =
                scan (ScanSt.name false [c]) rest from by
              simp [scan, h1, h2]] at h ⊢
          rw [ih (.name false [c]) h]
          simp [pendText]
      · cases eq_of_beq h1
        rw [show scan ScanSt.sawDollar ('\x7b' :: rest) = scan ScanSt.sawBrace rest from by
            simp [scan]] at h ⊢
        rw [ih .sawBrace h]
        rfl
    | sawBrace =>
      cases h2 : identStart c
      · cases h3 : c == '$'
        · rw [show scan ScanSt.sawBrace (c :: rest) =
                .lit '$' :: .lit '\x7b' :: .lit c :: scan ScanSt.normal rest from by
              simp [scan, h2, h3]] at h ⊢
          rw [substTokens_cons, substTokens_cons, substTokens_cons,
            ih .normal (by simpa [tokRefs_cons_lit] using h)]
          simp [pendText, renderTok_lit]
        · cases eq_of_beq h3
          rw [show scan ScanSt.sawBrace ('$' :: rest) =
                .lit '$' :: .lit '\x7b' :: scan ScanSt.sawDollar rest from by
              simp [scan, h2]] at h ⊢
          rw [substTokens_cons, substTokens_cons,
            ih .sawDollar (by simpa [tokRefs_cons_lit] using h)]
          simp [pendText, renderTok_lit]
      · rw [show scan ScanSt.sawBrace (c :: rest) = scan (ScanSt.name true [c]) rest from by
            simp [scan, h2]] at h ⊢
        rw [ih (.name true [c]) h]
        simp [pendText]
    | name braced acc =>
      cases h0 : identChar c
      · cases braced with
        | false =>
          cases h3 : c == '$'
          · rw [show scan (ScanSt.name false acc) (c :: rest) =
                  .var acc false :: .lit c :: scan ScanSt.normal rest from by
                simp [scan, h0, h3]] at h ⊢
            have hacc : A.contains (String.mk acc) = false := by
              apply h
              simp [tokRefs_cons_var]
            have hmem : String.mk acc ∉ A := by simpa using hacc
            rw [substTokens_cons, substTokens_cons,
              ih .normal (fun n hn => h n (by simp [tokRefs_cons_var, tokRefs_cons_lit, hn]))]
            simp [pendText, renderTok, hmem]
          · cases eq_of_beq h3
            rw [show scan (ScanSt.name false acc) ('$' :: rest) =
                  .var acc false :: scan ScanSt.sawDollar rest from by
                simp [scan, h0]] at h ⊢
            have hacc : A.contains (String.mk acc) = false := by
              apply h
              simp [tokRefs_cons_var]
            have hmem : String.mk acc ∉ A := by simpa using hacc
            rw [substTokens_cons,
              ih .sawDollar (fun n hn => h n (by simp [tokRefs_cons_var, hn]))]
            simp [pendText, renderTok, hmem]
        | true =>
          cases h4 : c == '\x7d'
          · cases h3 : c == '$'
            · rw [show scan (ScanSt.name true acc) (c :: rest) =
                    (.lit '$' :: .lit '\x7b' :: acc.map .lit) ++
                      (.lit c :: scan ScanSt.normal rest) from by
                  simp [scan, h0, h3, h4]] at h ⊢
              rw [substTokens_append, substTokens_cons, substTokens_cons, substTokens_cons,
                substTokens_lits,
                ih .normal (by
                  intro n hn
                  apply h
                  rw [show Tok.lit '$' :: Tok.lit '\x7b' :: List.map Tok.lit acc ++
                        (Tok.lit c :: scan ScanSt.normal rest) =
                      (('$' :: '\x7b' :: acc) ++ [c]).map Tok.lit ++ scan ScanSt.normal rest from by
                    simp]
                  rw [tokRefs_lits_append]
                  exact hn)]
              simp [pendText, renderTok_lit]
            · cases eq_of_beq h3
              rw [show scan (ScanSt.name true acc) ('$' :: rest) =
                    (.lit '$' :: .lit '\x7b' :: acc.map .lit) ++ scan ScanSt.sawDollar rest from by
                  simp [scan, h0, h4]] at h ⊢
              rw [substTokens_append, substTokens_cons, substTokens_cons, substTokens_lits,
                ih .sawDollar (by
                  intro n hn
                  apply h
                  rw [show Tok.lit '$' :: Tok.lit '\x7b' :: List.map Tok.lit acc ++
                        scan ScanSt.sawDollar rest =
                      ('$' :: '\x7b' :: acc).map Tok.lit ++ scan ScanSt.sawDollar rest from by
                    simp]
                  rw [tokRefs_lits_append]
                  exact hn)]
              simp [pendText, renderTok_lit]
          · cases eq_of_beq h4
            rw [show scan (ScanSt.name true acc) ('\x7d' :: rest) =
                  .var acc true :: scan ScanSt.normal rest from by
                simp [scan, h0]] at h ⊢
            have hacc : A.contains (String.mk acc) = false := by
              apply h
              simp [tokRefs_cons_var]
            have hmem : String.mk acc ∉ A := by simpa using hacc
            rw [substTokens_cons,
              ih .normal (fun n hn => h n (by simp [tokRefs_cons_var, hn]))]
            simp [pendText, renderTok, hmem]
      · rw [show scan (ScanSt.name braced acc) (c :: rest) =
              scan (ScanSt.name braced (acc ++ [c])) rest from by
            simp [scan, h0]] at h ⊢
        rw [ih (.name braced (acc ++ [c])) h]
        cases braced <;> simp [pendText]

/-- envsubst is the identity on a text none of whose variable references
lies in the allowed set. -/
theorem envsubstChars_id (A : List String) (E : List (String × String)) (l : List Char)
    (h : ∀ n ∈ varRefs l, A.contains n = false) : envsubstChars A E l = l := by
  have := substTokens_verbatim A E l .normal (by simpa [varRefs_eq_tokRefs, tokenize] using h)
  simpa [envsubstChars, tokenize, pendText] using this

theorem contains_eq_true_of_mem {l : List String} {a : String} (h : a ∈ l) :
    l.contains a = true := by
  simpa using h

theorem contains_eq_false_of_not_mem {l : List String} {a : String} (h : a ∉ l) :
    l.contains a = false := by
  cases hc : l.contains a
  · rfl
  · exact absurd (by simpa using hc) h

theorem lookup_some_mem {E : List (String × String)} {k v : String}
    (h : E.lookup k = some v) : k ∈ E.map Prod.fst := by
  induction E with
  | nil => cases h
  | cons p t ih =>
    rcases p with ⟨a, b⟩
    by_cases hk : k = a
    · simp [hk]
    · have hb : (k == a) = false := by simpa using hk
      rw [show List.lookup k ((a, b) :: t) = List.lookup k t from by
        simp [List.lookup, hb]] at h
      simp [ih h]

theorem fsSet_lookup_self (fs : List (String × String)) (p c : String) :
    (fsSet fs p c).lookup p = some c := by
  induction fs with
  | nil => simp [fsSet, List.lookup]
  | cons q t ih =>
    rcases q with ⟨q1, q2⟩
    by_cases h : q1 = p
    · subst h
      simp [fsSet, List.lookup]
    · have hb : (q1 == p) = false := by simpa using h
      have hb2 : (p == q1) = false := by simpa using Ne.symm h
      simp [fsSet, List.lookup, hb, hb2, ih]

theorem fsSet_lookup_ne (fs : List (String × String)) (p c q : String) (h : ¬ q = p) :
    (fsSet fs p c).lookup q = fs.lookup q := by
  have hqp : (q == p) = false := by simpa using h
  induction fs with
  | nil => simp [fsSet, List.lookup, hqp, h]
  | cons r t ih =>
    rcases r with ⟨r1, r2⟩
    by_cases hr : r1 = p
    · subst hr
      simp [fsSet, List.lookup, hqp, h]
    · have hb : (r1 == p) = false := by simpa using hr
      by_cases hqr : q = r1
      · simp [fsSet, List.lookup, hb, hqr]
      · have hq1 : (q == r1) = false := by simpa using hqr
        simp [fsSet, List.lookup, hb, hq1, hqr, ih]

theorem string_data_append (s t : String) : (s ++ t).data = s.data ++ t.data := by
  cases s
  cases t
  rfl

theorem ne_tmp (p : String) : ¬ p = p ++ ".tmp" := by
  intro h
  have h2 : p.data = p.data ++ ".tmp".data := by
    conv_lhs => rw [h]
    exact string_data_append p ".tmp"
  have h3 := congrArg List.length h2
  simp at h3

theorem writeFile_denied (s : Sys) (p c : String) : (writeFile s p c).1.denied = s.denied := by
  unfold writeFile
  split
  · rfl
  · rfl

theorem mvCmd_denied (s : Sys) (src dst : String) : (mvCmd s src dst).1.denied = s.denied := by
  unfold mvCmd
  cases s.files.lookup src with
  | none => rfl
  | some c =>
    by_cases hd : dst ∈ s.denied
    · simp [hd]
    · simp [hd]

theorem processFile_denied (env : List (String × String)) (s : Sys) (p : String) :
    (processFile env s p).1.denied = s.denied := by
  show (mvCmd (pipeCmd env s p).1 (p ++ ".tmp") p).1.denied = s.denied
  rw [mvCmd_denied]
  show (writeFile s (p ++ ".tmp") _).1.denied = s.denied
  rw [writeFile_denied]

theorem runLoop_events (env : List (String × String)) :
    ∀ (s : Sys) (words : List String), (runLoop env s words).events = words.map Ev.processed := by
  intro s words
  induction words generalizing s with
  | nil => rfl
  | cons p rest ih => simp [runLoop, ih]

theorem runLoop_nofault (env : List (String × String)) :
    ∀ (s : Sys) (words : List String), s.denied = [] → (runLoop env s words).exitCode = 0 := by
  intro s words
  induction words generalizing s with
  | nil => intro _; rfl
  | cons p rest ih =>
    intro h
    have hstep : (processFile env s p).2 = 0 := by
      simp [processFile, pipeCmd, mvCmd, writeFile, readFile, h, fsSet_lookup_self]
    have hden : (processFile env s p).1.denied = [] := by
      rw [processFile_denied]
      exact h
    cases rest with
    | nil => simpa [runLoop] using hstep
    | cons q qs =>
      have := ih (processFile env s p).1 hden
      simpa [runLoop] using this

theorem isIdentName_parts {nm : String} (h : isIdentName nm.data = true) :
    ∃ c cs, nm.data = c :: cs ∧ identStart c = true ∧ cs.all identChar = true := by
  cases hd : nm.data with
  | nil =>
    rw [hd] at h
    cases h
  | cons c cs =>
    rw [hd] at h
    simp only [isIdentName, Bool.and_eq_true] at h
    exact ⟨c, cs, rfl, h.1, h.2⟩

theorem stringMk_name_eq {nm : String} {c : Char} {cs : List Char} (h : nm.data = c :: cs) :
    String.mk (c :: cs) = nm := by
  rw [← h]

theorem envsubst_braced_matched (A : List String) (E : List (String × String)) (nm v : String)
    (post : List Char) (hid : isIdentName nm.data = true)
    (hA : A.contains nm = true) (hv : E.lookup nm = some v) :
    envsubstChars A E ('$' :: '\x7b' :: nm.data ++ '\x7d' :: post) =
      v.data ++ envsubstChars A E post := by
  obtain ⟨c, cs, hcc, h1, h2⟩ := isIdentName_parts hid
  rw [hcc]
  unfold envsubstChars
  rw [show ('$' :: '\x7b' :: (c :: cs) ++ '\x7d' :: post : List Char) =
        '$' :: '\x7b' :: c :: (cs ++ '\x7d' :: post) from by simp]
  rw [tokenize_braced c cs post h1 h2, substTokens_cons]
  have hs := stringMk_name_eq hcc
  simp only [renderTok, hs, hA, hv]
  simp

theorem envsubst_braced_unmatched (A : List String) (E : List (String × String)) (nm : String)
    (post : List Char) (hid : isIdentName nm.data = true) (hA : A.contains nm = false) :
    envsubstChars A E ('$' :: '\x7b' :: nm.data ++ '\x7d' :: post) =
      '$' :: '\x7b' :: nm.data ++ '\x7d' :: envsubstChars A E post := by
  obtain ⟨c, cs, hcc, h1, h2⟩ := isIdentName_parts hid
  rw [hcc]
  unfold envsubstChars
  rw [show ('$' :: '\x7b' :: (c :: cs) ++ '\x7d' :: post : List Char) =
        '$' :: '\x7b' :: c :: (cs ++ '\x7d' :: post) from by simp]
  rw [tokenize_braced c cs post h1 h2, substTokens_cons]
  have hs := stringMk_name_eq hcc
  simp only [renderTok, hs, hA]
  simp

theorem envsubst_bare_matched (A : List String) (E : List (String × String)) (nm v : String)
    (post : List Char) (hid : isIdentName nm.data = true)
    (hpost : ∀ d ∈ post.head?, identChar d = false)
    (hA : A.contains nm = true) (hv : E.lookup nm = some v) :
    envsubstChars A E ('$' :: nm.data ++ post) = v.data ++ envsubstChars A E post := by
  obtain ⟨c, cs, hcc, h1, h2⟩ := isIdentName_parts hid
  rw [hcc]
  unfold envsubstChars
  rw [show ('$' :: (c :: cs) ++ post : List Char) = '$' :: c :: (cs ++ post) from by simp]
  rw [tokenize_bare c cs post h1 h2 hpost, substTokens_cons]
  have hs := stringMk_name_eq hcc
  simp only [renderTok, hs, hA, hv]
  simp

theorem envsubst_bare_unmatched (A : List String) (E : List (String × String)) (nm : String)
    (post : List Char) (hid : isIdentName nm.data = true)
    (hpost : ∀ d ∈ post.head?, identChar d = false) (hA : A.contains nm = false) :
    envsubstChars A E ('$' :: nm.data ++ post) = '$' :: nm.data ++ envsubstChars A E post := by
  obtain ⟨c, cs, hcc, h1, h2⟩ := isIdentName_parts hid
  rw [hcc]
  unfold envsubstChars
  rw [show ('$' :: (c :: cs) ++ post : List Char) = '$' :: c :: (cs ++ post) from by simp]
  rw [tokenize_bare c cs post h1 h2 hpost, substTokens_cons]
  have hs := stringMk_name_eq hcc
  simp only [renderTok, hs, hA]
  simp

/-- C1, as stated, is false: with the environment mapping
A maps-to "x", followed by a newline, followed by "FOO" as the value of A,
printenv emits two records, so the spurious name FOO enters
EXISTING_VARS; envsubst then deletes the placeholder of FOO -- whose NAME
is not a key of the mapping -- instead of leaving it unchanged. -/
theorem c1_counterexample :
    "FOO" ∉ [("A", "x\nFOO")].map Prod.fst ∧
    materializeContent [("A", "x\nFOO")] "$FOO" = "" ∧
    materializeContent [("A", "x\nFOO")] "$FOO" ≠ "$FOO" := by
  refine ⟨by decide, by decide, by decide⟩

/-- C1 (amended): for every environment mapping whose names are shell
identifiers and whose values contain no newline, a placeholder token
whose NAME is not a key of the mapping is left in the output
character-for-character unchanged -- including the dollar sign and any
braces -- and materialization does not fail because of it; the rest of
the text is processed normally. -/
theorem c1_unset_placeholder_preserved (env : List (String × String)) (nm : String)
    (post : List Char) (hwf : envWellFormed env) (hid : isIdentName nm.data = true)
    (habs : nm ∉ env.map Prod.fst) :
    materializeContent env (String.mk ('$' :: '\x7b' :: nm.data ++ '\x7d' :: post)) =
      String.mk ('$' :: '\x7b' :: nm.data ++ '\x7d' ::
        envsubstChars (existingVars env) env post) ∧
    ((∀ d ∈ post.head?, identChar d = false) →
      materializeContent env (String.mk ('$' :: nm.data ++ post)) =
        String.mk ('$' :: nm.data ++ envsubstChars (existingVars env) env post)) := by
  have hA : (existingVars env).contains nm = false := by
    rw [existingVars_wf env hwf]
    exact contains_eq_false_of_not_mem habs
  constructor
  · show String.mk (envsubstChars (existingVars env) env
      ('$' :: '\x7b' :: nm.data ++ '\x7d' :: post)) = _
    rw [envsubst_braced_unmatched (existingVars env) env nm post hid hA]
  · intro hpost
    show String.mk (envsubstChars (existingVars env) env ('$' :: nm.data ++ post)) = _
    rw [envsubst_bare_unmatched (existingVars env) env nm post hid hpost hA]

/-- C1 witness: at a concrete well-formed environment, the braced and
bare placeholders of the unset name B survive materialization verbatim. -/
theorem c1_unset_placeholder_preserved_witness :
    envWellFormed [("A", "1")] ∧ isIdentName "B".data = true ∧
    "B" ∉ [("A", "1")].map Prod.fst ∧ (∀ d ∈ ([] : List Char).head?, identChar d = false) ∧
    materializeContent [("A", "1")] (String.mk ('$' :: '\x7b' :: "B".data ++ '\x7d' :: [])) =
      String.mk ('$' :: '\x7b' :: "B".data ++ '\x7d' ::
        envsubstChars (existingVars [("A", "1")]) [("A", "1")] []) ∧
    materializeContent [("A", "1")] (String.mk ('$' :: "B".data ++ [])) =
      String.mk ('$' :: "B".data ++ envsubstChars (existingVars [("A", "1")]) [("A", "1")] []) := by
  refine ⟨by decide, by decide, by decide, by decide, ?_, ?_⟩
  · exact (c1_unset_placeholder_preserved [("A", "1")] "B" [] (by decide) (by decide)
      (by decide)).1
  · exact (c1_unset_placeholder_preserved [("A", "1")] "B" [] (by decide) (by decide)
      (by decide)).2 (by decide)

/-- C5: substitution is single-pass and non-recursive: a substituted
value is inserted as a literal string in front of the processed rest of
the text, so a token occurring inside the value is never expanded again
-- the equation inserts the raw value characters untouched. -/
theorem c5_literal_insertion (env : List (String × String)) (nm v : String) (post : List Char)
    (hwf : envWellFormed env) (hid : isIdentName nm.data = true)
    (hv : env.lookup nm = some v) :
    materializeContent env (String.mk ('$' :: '\x7b' :: nm.data ++ '\x7d' :: post)) =
      String.mk (v.data ++ envsubstChars (existingVars env) env post) := by
  have hA : (existingVars env).contains nm = true := by
    rw [existingVars_wf env hwf]
    exact contains_eq_true_of_mem (lookup_some_mem hv)
  show String.mk (envsubstChars (existingVars env) env
    ('$' :: '\x7b' :: nm.data ++ '\x7d' :: post)) = _
  rw [envsubst_braced_matched (existingVars env) env nm v post hid hA hv]

/-- C5 witness: with A bound to the value made of a dollar sign followed
by B, and B itself a key bound to x, the placeholder of A materializes to
that value literally -- B is not expanded inside it. -/
theorem c5_literal_insertion_witness :
    envWellFormed [("A", "$B"), ("B", "x")] ∧
    [("A", "$B"), ("B", "x")].lookup "A" = some "$B" ∧
    materializeContent [("A", "$B"), ("B", "x")]
        (String.mk ('$' :: '\x7b' :: "A".data ++ '\x7d' :: [])) =
      String.mk ("$B".data ++
        envsubstChars (existingVars [("A", "$B"), ("B", "x")]) [("A", "$B"), ("B", "x")] []) ∧
    String.mk ("$B".data ++
        envsubstChars (existingVars [("A", "$B"), ("B", "x")]) [("A", "$B"), ("B", "x")] []) ≠
      "x" := by
  refine ⟨by decide, by decide, ?_, by decide⟩
  exact c5_literal_insertion [("A", "$B"), ("B", "x")] "A" "$B" [] (by decide) (by decide)
    (by decide)

/-- C9, as stated, is false: with the environment mapping B maps-to "y",
newline, "BAR", the file whose single placeholder names BAR -- not a key
of the mapping -- is not left byte-identical: the newline in the value
injects BAR into EXISTING_VARS and the placeholder is deleted. -/
theorem c9_counterexample :
    varRefs "$BAR".data = ["BAR"] ∧
    "BAR" ∉ [("B", "y\nBAR")].map Prod.fst ∧
    materializeContent [("B", "y\nBAR")] "$BAR" = "" ∧
    materializeContent [("B", "y\nBAR")] "$BAR" ≠ "$BAR" := by
  refine ⟨by decide, by decide, by decide, by decide⟩

/-- C9 (amended): for every environment mapping whose names are shell
identifiers and whose values contain no newline, materialization is the
identity -- once and twice -- on every file all of whose placeholder
names fall outside the keys of the mapping. -/
theorem c9_idempotence_of_absence (env : List (String × String)) (content : String)
    (hwf : envWellFormed env)
    (habs : ∀ n ∈ varRefs content.data, n ∉ env.map Prod.fst) :
    materializeContent env content = content ∧
    materializeContent env (materializeContent env content) = content := by
  have hid : materializeContent env content = content := by
    show String.mk (envsubstChars (existingVars env) env content.data) = content
    rw [envsubstChars_id (existingVars env) env content.data fun n hn => by
      rw [existingVars_wf env hwf]
      exact contains_eq_false_of_not_mem (habs n hn)]
  exact ⟨hid, by rw [hid, hid]⟩

/-- C9 witness: a concrete file whose placeholders B and C are unset
keeps its exact bytes through one and two materialization passes. -/
theorem c9_idempotence_of_absence_witness :
    envWellFormed [("A", "1")] ∧
    (∀ n ∈ varRefs "$B and $C".data, n ∉ [("A", "1")].map Prod.fst) ∧
    materializeContent [("A", "1")] "$B and $C" = "$B and $C" ∧
    materializeContent [("A", "1")] (materializeContent [("A", "1")] "$B and $C") =
      "$B and $C" := by
  refine ⟨by decide, by decide, ?_, ?_⟩
  · exact (c9_idempotence_of_absence [("A", "1")] "$B and $C" (by decide) (by decide)).1
  · exact (c9_idempotence_of_absence [("A", "1")] "$B and $C" (by decide) (by decide)).2

/-- C10: a variable set to the empty string is still in the substitution
set: its placeholder is deleted from the file, while under an
environment not defining the name at all the placeholder is preserved
verbatim -- set-but-empty and unset behave differently. -/
theorem c10_empty_vs_unset (env env2 : List (String × String)) (nm : String) (post : List Char)
    (hwf : envWellFormed env) (hwf2 : envWellFormed env2) (hid : isIdentName nm.data = true)
    (hempty : env.lookup nm = some "") (habs : nm ∉ env2.map Prod.fst) :
    materializeContent env (String.mk ('$' :: '\x7b' :: nm.data ++ '\x7d' :: post)) =
      String.mk (envsubstChars (existingVars env) env post) ∧
    materializeContent env2 (String.mk ('$' :: '\x7b' :: nm.data ++ '\x7d' :: post)) =
      String.mk ('$' :: '\x7b' :: nm.data ++ '\x7d' ::
        envsubstChars (existingVars env2) env2 post) := by
  constructor
  · have hA : (existingVars env).contains nm = true := by
      rw [existingVars_wf env hwf]
      exact contains_eq_true_of_mem (lookup_some_mem hempty)
    show String.mk (envsubstChars (existingVars env) env
      ('$' :: '\x7b' :: nm.data ++ '\x7d' :: post)) = _
    rw [envsubst_braced_matched (existingVars env) env nm "" post hid hA hempty]
    rfl
  · have hA : (existingVars env2).contains nm = false := by
      rw [existingVars_wf env2 hwf2]
      exact contains_eq_false_of_not_mem habs
    show String.mk (envsubstChars (existingVars env2) env2
      ('$' :: '\x7b' :: nm.data ++ '\x7d' :: post)) = _
    rw [envsubst_braced_unmatched (existingVars env2) env2 nm post hid hA]

/-- C10 witness: the placeholder of EMPTY, set to the empty string, is
deleted; the same placeholder under an environment not defining EMPTY is
preserved verbatim. -/
theorem c10_empty_vs_unset_witness :
    envWellFormed [("EMPTY", "")] ∧ envWellFormed [("OTHER", "1")] ∧
    [("EMPTY", "")].lookup "EMPTY" = some "" ∧
    "EMPTY" ∉ [("OTHER", "1")].map Prod.fst ∧
    materializeContent [("EMPTY", "")]
        (String.mk ('$' :: '\x7b' :: "EMPTY".data ++ '\x7d' :: [])) =
      String.mk (envsubstChars (existingVars [("EMPTY", "")]) [("EMPTY", "")] []) ∧
    materializeContent [("OTHER", "1")]
        (String.mk ('$' :: '\x7b' :: "EMPTY".data ++ '\x7d' :: [])) =
      String.mk ('$' :: '\x7b' :: "EMPTY".data ++ '\x7d' ::
        envsubstChars (existingVars [("OTHER", "1")]) [("OTHER", "1")] []) := by
  refine ⟨by decide, by decide, by decide, by decide, ?_, ?_⟩
  · exact (c10_empty_vs_unset [("EMPTY", "")] [("OTHER", "1")] "EMPTY" [] (by decide)
      (by decide) (by decide) (by decide) (by decide)).1
  · exact (c10_empty_vs_unset [("EMPTY", "")] [("OTHER", "1")] "EMPTY" [] (by decide)
      (by decide) (by decide) (by decide) (by decide)).2

/-- C2: the rewrite of one file is atomic.  At every crash point of the
iteration -- nothing done, temporary file partially written, temporary
file fully written, renamed -- the contents at the original path are
either exactly the old contents or exactly the fully transformed new
contents, and at the crash point right after the temporary file is fully
written but before the rename the original is still untouched. -/
theorem c2_atomic_rewrite (env : List (String × String)) (fs : List (String × String))
    (p mid : String) (k : Nat) :
    ((rewriteStage env fs p mid k).lookup p = fs.lookup p ∨
      (rewriteStage env fs p mid k).lookup p =
        some (materializeContent env ((fs.lookup p).getD ""))) ∧
    (rewriteStage env fs p mid 2).lookup p = fs.lookup p := by
  have hne : ¬ p = p ++ ".tmp" := ne_tmp p
  have hstage2 : (rewriteStage env fs p mid 2).lookup p = fs.lookup p := by
    show (fsSet fs (p ++ ".tmp") _).lookup p = fs.lookup p
    exact fsSet_lookup_ne fs (p ++ ".tmp") _ p hne
  refine ⟨?_, hstage2⟩
  by_cases h0 : k = 0
  · subst h0
    left
    rfl
  by_cases h1 : k = 1
  · subst h1
    left
    show (fsSet fs (p ++ ".tmp") mid).lookup p = fs.lookup p
    exact fsSet_lookup_ne fs (p ++ ".tmp") mid p hne
  by_cases h2 : k = 2
  · subst h2
    left
    exact hstage2
  · right
    have hred : rewriteStage env fs p mid k = (processFile env ⟨fs, []⟩ p).1.files := by
      simp [rewriteStage, h0, h1, h2]
    rw [hred]
    have hmv : mvCmd ⟨fsSet fs (p ++ ".tmp") (materializeContent env ((fs.lookup p).getD "")), []⟩
        (p ++ ".tmp") p =
        (⟨fsSet (fsRemove (fsSet fs (p ++ ".tmp")
            (materializeContent env ((fs.lookup p).getD ""))) (p ++ ".tmp")) p
            (materializeContent env ((fs.lookup p).getD "")), []⟩, 0) := by
      unfold mvCmd
      rw [fsSet_lookup_self]
      rfl
    show (mvCmd ⟨fsSet fs (p ++ ".tmp") (materializeContent env ((fs.lookup p).getD "")), []⟩
        (p ++ ".tmp") p).1.files.lookup p = _
    rw [hmv]
    exact fsSet_lookup_self _ _ _

/-- C3, as stated, is false: on a bundle of two matched files where all
I/O on the first file is denied, the pass does not abort: the second
file is still processed (its placeholder is substituted) and the script
proceeds to start the server, while the first file keeps its old
contents and a stray temporary file is left behind. -/
theorem c3_counterexample :
    (runScript [("A", "1")] "*.js"
        ⟨[("a.js", "$A"), ("b.js", "$A")], ["a.js"]⟩).sys.files.lookup "b.js" = some "1" ∧
    Ev.processed "b.js" ∈ (runScript [("A", "1")] "*.js"
        ⟨[("a.js", "$A"), ("b.js", "$A")], ["a.js"]⟩).trace ∧
    (runScript [("A", "1")] "*.js"
        ⟨[("a.js", "$A"), ("b.js", "$A")], ["a.js"]⟩).serverStarted = true ∧
    (runScript [("A", "1")] "*.js"
        ⟨[("a.js", "$A"), ("b.js", "$A")], ["a.js"]⟩).sys.files.lookup "a.js" = some "$A" ∧
    (runScript [("A", "1")] "*.js"
        ⟨[("a.js", "$A"), ("b.js", "$A")], ["a.js"]⟩).sys.files.lookup "a.js.tmp" = some "" := by
  refine ⟨by decide, by decide, by decide, by decide, by decide⟩

/-- C3 (amended): an I/O failure on one file does not abort the pass:
whatever the set of denied paths, every word of the glob expansion is
still processed by the loop, and the script then starts the server. -/
theorem c3_failure_does_not_abort (env : List (String × String)) (pat : String) (s : Sys) :
    (∀ w ∈ expandGlob pat s.files, Ev.processed w ∈ (runScript env pat s).trace) ∧
    (runScript env pat s).serverStarted = true := by
  constructor
  · intro w hw
    show Ev.processed w ∈
      (runLoop env s (expandGlob pat s.files)).events ++ [Ev.serverStart]
    rw [runLoop_events]
    exact List.mem_append_left _ (List.mem_map_of_mem _ hw)
  · rfl

/-- C3 witness: in the concrete denied-path run, the failing first file
is itself among the processed words of the trace. -/
theorem c3_failure_does_not_abort_witness :
    "a.js" ∈ expandGlob "*.js" [("a.js", "$A"), ("b.js", "$A")] ∧
    Ev.processed "a.js" ∈ (runScript [("A", "1")] "*.js"
        ⟨[("a.js", "$A"), ("b.js", "$A")], ["a.js"]⟩).trace ∧
    (runScript [("A", "1")] "*.js"
        ⟨[("a.js", "$A"), ("b.js", "$A")], ["a.js"]⟩).serverStarted = true := by
  refine ⟨by decide, ?_, ?_⟩
  · exact (c3_failure_does_not_abort [("A", "1")] "*.js"
      ⟨[("a.js", "$A"), ("b.js", "$A")], ["a.js"]⟩).1 "a.js" (by decide)
  · exact (c3_failure_does_not_abort [("A", "1")] "*.js"
      ⟨[("a.js", "$A"), ("b.js", "$A")], ["a.js"]⟩).2

/-- C4, as stated, is false in its second half: in a run where the
temporary file of the only matched file cannot be written, the
materialization loop finishes with exit status 1, yet the server is
started all the same -- a non-zero exit does not prevent the start. -/
theorem c4_counterexample :
    (runScript [("A", "1")] "*.js"
        ⟨[("a.js", "$A")], ["a.js.tmp"]⟩).materializationExit = 1 ∧
    (runScript [("A", "1")] "*.js" ⟨[("a.js", "$A")], ["a.js.tmp"]⟩).serverStarted = true := by
  refine ⟨by decide, by decide⟩

/-- C4 (amended): the ordering half of the claim holds -- the server
start is the last event of every run, and everything before it is the
processing of a target word -- but the server is started unconditionally,
whatever exit status the loop commands produced. -/
theorem c4_server_start_ordering (env : List (String × String)) (pat : String) (s : Sys) :
    (runScript env pat s).trace.getLast? = some Ev.serverStart ∧
    (∀ e ∈ (runScript env pat s).trace.dropLast, ∃ w, e = Ev.processed w) ∧
    (runScript env pat s).serverStarted = true := by
  refine ⟨?_, ?_, rfl⟩
  · show ((runLoop env s (expandGlob pat s.files)).events ++ [Ev.serverStart]).getLast? = _
    exact List.getLast?_concat _
  · show ∀ e ∈ ((runLoop env s (expandGlob pat s.files)).events ++
      [Ev.serverStart]).dropLast, ∃ w, e = Ev.processed w
    rw [List.dropLast_concat, runLoop_events]
    intro e he
    obtain ⟨w, _, rfl⟩ := List.mem_map.mp he
    exact ⟨w, rfl⟩

/-- C4 witness: at a concrete run, the last trace event is the server
start, a concrete earlier event is a file processing, and the server
started. -/
theorem c4_server_start_ordering_witness :
    (runScript [("A", "1")] "*.js" ⟨[("a.js", "$A")], []⟩).trace.getLast? =
      some Ev.serverStart ∧
    (∃ w, Ev.processed "a.js" = Ev.processed w) ∧
    (runScript [("A", "1")] "*.js" ⟨[("a.js", "$A")], []⟩).serverStarted = true := by
  refine ⟨(c4_server_start_ordering [("A", "1")] "*.js" ⟨[("a.js", "$A")], []⟩).1, ?_,
    (c4_server_start_ordering [("A", "1")] "*.js" ⟨[("a.js", "$A")], []⟩).2.2⟩
  exact (c4_server_start_ordering [("A", "1")] "*.js" ⟨[("a.js", "$A")], []⟩).2.1
    (Ev.processed "a.js") (by decide)

/-- C6, as stated, is false: on an empty filesystem the glob matches
zero files, yet the run modifies the filesystem -- bash keeps the
unmatched pattern as a literal word, the loop body runs once on it, and
an empty file literally named like the pattern is created. -/
theorem c6_counterexample :
    ([] : List (String × String)).lookup "*.js" = none ∧
    (runScript [("ENV", "prod")] "*.js" ⟨[], []⟩).sys.files.lookup "*.js" = some "" ∧
    (runScript [("ENV", "prod")] "*.js" ⟨[], []⟩).serverStarted = true := by
  refine ⟨by decide, by decide, by decide⟩

/-- C6 (amended): when the glob matches zero files the script still
succeeds -- the loop leaves exit status 0 and the server starts -- but
the pass is not a no-op: the loop body runs once on the literal
unexpanded pattern and creates a file named by the pattern, holding the
substitution of the empty input. -/
theorem c6_zero_match_not_noop (env : List (String × String)) (pat : String) (s : Sys)
    (hmatch : (s.files.map Prod.fst).filter (fun p => globMatch pat p) = [])
    (habs : s.files.lookup pat = none)
    (hd1 : pat ∉ s.denied)
    (hd2 : (pat ++ ".tmp") ∉ s.denied) :
    expandGlob pat s.files = [pat] ∧
    (runScript env pat s).materializationExit = 0 ∧
    (runScript env pat s).serverStarted = true ∧
    (runScript env pat s).sys.files.lookup pat = some (materializeContent env "") := by
  have hexp : expandGlob pat s.files = [pat] := by
    unfold expandGlob
    rw [hmatch]
    rfl
  have hd1b : s.denied.contains pat = false := contains_eq_false_of_not_mem hd1
  have hd2b : s.denied.contains (pat ++ ".tmp") = false := contains_eq_false_of_not_mem hd2
  have hread : readFile s pat = none := by
    simp [readFile, hd1b, habs]
  have hpipe : pipeCmd env s pat =
      (⟨fsSet s.files (pat ++ ".tmp") (materializeContent env ""), s.denied⟩, 0) := by
    unfold pipeCmd writeFile
    rw [hread]
    simp [hd2]
  have hmv : mvCmd ⟨fsSet s.files (pat ++ ".tmp") (materializeContent env ""), s.denied⟩
      (pat ++ ".tmp") pat =
      (⟨fsSet (fsRemove (fsSet s.files (pat ++ ".tmp") (materializeContent env ""))
          (pat ++ ".tmp")) pat (materializeContent env ""), s.denied⟩, 0) := by
    unfold mvCmd
    rw [fsSet_lookup_self]
    simp [hd1]
  have hproc : processFile env s pat =
      (⟨fsSet (fsRemove (fsSet s.files (pat ++ ".tmp") (materializeContent env ""))
          (pat ++ ".tmp")) pat (materializeContent env ""), s.denied⟩, 0) := by
    show mvCmd (pipeCmd env s pat).1 (pat ++ ".tmp") pat = _
    rw [hpipe]
    exact hmv
  refine ⟨hexp, ?_, rfl, ?_⟩
  · show (runLoop env s (expandGlob pat s.files)).exitCode = 0
    rw [hexp]
    simp [runLoop, hproc]
  · show (runLoop env s (expandGlob pat s.files)).sys.files.lookup pat = _
    rw [hexp]
    simp only [runLoop, hproc]
    exact fsSet_lookup_self _ _ _

/-- C6 witness: on the empty filesystem with a concrete environment, the
zero-match run exits 0, starts the server, and creates the
pattern-named file. -/
theorem c6_zero_match_not_noop_witness :
    (([] : List (String × String)).map Prod.fst).filter
      (fun p => globMatch "*.js" p) = [] ∧
    ([] : List (String × String)).lookup "*.js" = none ∧
    "*.js" ∉ ([] : List String) ∧ "*.js" ++ ".tmp" ∉ ([] : List String) ∧
    expandGlob "*.js" ([] : List (String × String)) = ["*.js"] ∧
    (runScript [("ENV", "prod")] "*.js" ⟨[], []⟩).materializationExit = 0 ∧
    (runScript [("ENV", "prod")] "*.js" ⟨[], []⟩).sys.files.lookup "*.js" =
      some (materializeContent [("ENV", "prod")] "") := by
  refine ⟨by decide, by decide, by decide, by decide, ?_, ?_, ?_⟩
  · exact (c6_zero_match_not_noop [("ENV", "prod")] "*.js" ⟨[], []⟩ (by decide) (by decide)
      (by decide) (by decide)).1
  · exact (c6_zero_match_not_noop [("ENV", "prod")] "*.js" ⟨[], []⟩ (by decide) (by decide)
      (by decide) (by decide)).2.1
  · exact (c6_zero_match_not_noop [("ENV", "prod")] "*.js" ⟨[], []⟩ (by decide) (by decide)
      (by decide) (by decide)).2.2.2

/-- C7, as stated, is false in its first half: the script returns no
counts -- two successful runs differing in the number of files processed
(one versus two) and in the number of tokens substituted (one versus
two) leave the very same exit status, the only value the loop returns. -/
theorem c7_counterexample :
    (runScript [("A", "1")] "*.js" ⟨[("a.js", "$A")], []⟩).materializationExit =
      (runScript [("A", "1")] "*.js"
        ⟨[("a.js", "$A"), ("b.js", "$A")], []⟩).materializationExit ∧
    (expandGlob "*.js" [("a.js", "$A")]).length = 1 ∧
    (expandGlob "*.js" [("a.js", "$A"), ("b.js", "$A")]).length = 2 ∧
    substitutedCount (existingVars [("A", "1")]) "$A".data = 1 ∧
    substitutedCount (existingVars [("A", "1")]) ("$A".data ++ "$A".data) = 2 := by
  refine ⟨by decide, by decide, by decide, by decide, by decide⟩

/-- C7 (amended): absence of a matching token is not an error and does
not stop the pass: with no I/O fault, for every environment, every file
contents and every word list -- matched tokens present or not -- the loop
processes every word in order and finishes with exit status 0. -/
theorem c7_no_match_not_error (env : List (String × String)) (s : Sys) (words : List String)
    (h : s.denied = []) :
    (runLoop env s words).exitCode = 0 ∧
    (runLoop env s words).events = words.map Ev.processed :=
  ⟨runLoop_nofault env s words h, runLoop_events env s words⟩

/-- C7 witness: a run over a file with no placeholder at all, followed
by a missing file, still processes both words and exits 0. -/
theorem c7_no_match_not_error_witness :
    (runLoop [("A", "1")] ⟨[("a.js", "no placeholder here")], []⟩
      ["a.js", "b.js"]).exitCode = 0 ∧
    (runLoop [("A", "1")] ⟨[("a.js", "no placeholder here")], []⟩ ["a.js", "b.js"]).events =
      [Ev.processed "a.js", Ev.processed "b.js"] :=
  c7_no_match_not_error [("A", "1")] ⟨[("a.js", "no placeholder here")], []⟩
    ["a.js", "b.js"] rfl

/-- C8: the build-stage jq transform maps every flat JSON object with
pairwise distinct keys to the object with the same keys where every
value is the literal dollar-prefixed key. -/
theorem c8_jq_transform (o : List (String × JVal)) (h : (o.map Prod.fst).Nodup) :
    jqEnvTransform o = o.map fun e => (e.1, JVal.str ("$" ++ e.1)) := by
  have main : ∀ (entries acc : List (String × JVal)),
      (entries.map Prod.fst).Nodup →
      (∀ k ∈ acc.map Prod.fst, k ∉ entries.map Prod.fst) →
      (entries.map entryToVarObj).foldl objAdd acc =
        acc ++ entries.map fun e => (e.1, JVal.str ("$" ++ e.1)) := by
    intro entries
    induction entries with
    | nil =>
      intro acc _ _
      simp
    | cons e es ih =>
      intro acc hnodup hdis
      have hnd2 : (es.map Prod.fst).Nodup := by
        simp only [List.map_cons, List.nodup_cons] at hnodup
        exact hnodup.2
      have hhead : e.1 ∉ es.map Prod.fst := by
        simp only [List.map_cons, List.nodup_cons] at hnodup
        exact hnodup.1
      have hadd : objAdd acc (entryToVarObj e) = acc ++ [(e.1, JVal.str ("$" ++ e.1))] := by
        unfold objAdd entryToVarObj
        have hfilter : (acc.filter fun p =>
            !(([(e.1, JVal.str ("$" ++ e.1))].map Prod.fst).contains p.1)) = acc := by
          apply List.filter_eq_self.mpr
          intro p hp
          have hk := hdis p.1 (List.mem_map_of_mem _ hp)
          have hne : ¬ p.1 = e.1 := fun hc => hk (by rw [hc]; simp)
          simp [hne]
        rw [hfilter]
      have hdis2 : ∀ k ∈ (acc ++ [(e.1, JVal.str ("$" ++ e.1))]).map Prod.fst,
          k ∉ es.map Prod.fst := by
        intro k hk
        rw [List.map_append] at hk
        rcases List.mem_append.mp hk with hk | hk
        · have hthis := hdis k hk
          simp only [List.map_cons, List.mem_cons] at hthis
          exact fun hc => hthis (Or.inr hc)
        · simp at hk
          subst hk
          exact hhead
      simp only [List.map_cons, List.foldl_cons, hadd]
      rw [ih (acc ++ [(e.1, JVal.str ("$" ++ e.1))]) hnd2 hdis2]
      simp
  have hmain := main o [] h (by simp)
  simpa [jqEnvTransform, toEntries] using hmain

/-- C8 witness: the object binding ENV to development is mapped to the
object binding ENV to the literal dollar-ENV string. -/
theorem c8_jq_transform_witness :
    ([("ENV", JVal.str "development")].map Prod.fst).Nodup ∧
    jqEnvTransform [("ENV", JVal.str "development")] = [("ENV", JVal.str "$ENV")] := by
  refine ⟨by decide, ?_⟩
  rw [c8_jq_transform [("ENV", JVal.str "development")] (by decide)]
  decide
